import Mathlib

/-!
Verification development for the `schemast` schema-AST mutation library.

The repository edits Go syntax trees of ent schema declarations: a
`Context` registers declared types and their `Fields`/`Edges` methods
(each returning either the `nil` identifier or a slice literal of
builder-call fragments), a translator turns field descriptors into such
fragments, mutation operations append/remove fragments, and an upsert
mutator plus a pipeline orchestrate them.

The pipeline `Mutate` and `UpsertSchema.Mutate` are embedded from
`mutate.go`.  The `Context` operations and the descriptor translator are
not part of the provided sources (only their tests and callers are), so
they are modelled from the specification; each such definition's doc
comment says so.
-/

set_option autoImplicit false

namespace Schemast

/-- The enumerated base kind of a field descriptor (ent `field.Type`).
Modelled from the spec: a closed enumeration of base types
(string, bool, int variants, time, enum, json, ...). -/
inductive FieldKind where
  | string
  | bool
  | int
  | int64
  | time
  | enum
  | json
  | other (tag : String)
deriving DecidableEq, Repr

/-- The printed name of a kind, as it appears in `UnsupportedType` error
messages (e.g. `TypeJSON` in the tests). Modelled from the spec and the
expected test messages. -/
def FieldKind.kindName : FieldKind → String
  | .string => "TypeString"
  | .bool => "TypeBool"
  | .int => "TypeInt"
  | .int64 => "TypeInt64"
  | .time => "TypeTime"
  | .enum => "TypeEnum"
  | .json => "TypeJSON"
  | .other tag => tag

/-- The closed kind-to-constructor lookup table. Modelled from the spec:
maps a kind to the base constructor name (`field.<ctor>`); a kind with no
entry (JSON, or an unknown kind) is unsupported. -/
def constructorOf : FieldKind → Option String
  | .string => some "String"
  | .bool => some "Bool"
  | .int => some "Int"
  | .int64 => some "Int64"
  | .time => some "Time"
  | .enum => some "Enum"
  | .json => none
  | .other _ => none

/-- A field descriptor. Modelled from the spec: a kind, a name, and the
optional modifiers relevant to the mutation operations.  Modifiers are a
record, so the order in which a caller set them is not observable, exactly
as with the Go descriptor struct.  `annots`, `hasDefault` and `validators`
record presence of the three modifiers that have no syntactic
representation (Annotations, Default, Validators). -/
structure FieldDescriptor where
  kind : FieldKind
  name : String
  optional : Bool := false
  unique : Bool := false
  immutable : Bool := false
  nillable : Bool := false
  storageKey : Option String := none
  structTag : Option String := none
  enumValues : List String := []
  enumNamedValues : List (String × String) := []
  annots : Bool := false
  hasDefault : Bool := false
  validators : Nat := 0
deriving DecidableEq, Repr

/-- One chained modifier call of a builder-call fragment. -/
inductive ChainedCall where
  | noArg (method : String)
  | strArg (method : String) (arg : String)
  | strList (method : String) (args : List String)
deriving DecidableEq, Repr

/-- A syntax fragment: a base constructor call `field.<ctor>(<name>)`
followed by chained modifier calls, in canonical order. -/
structure Fragment where
  ctor : String
  name : String
  calls : List ChainedCall
deriving DecidableEq, Repr

/-- Go string-literal quoting restricted to the escapes the tag strings in
this repository need: `"` and `\` are escaped with a backslash, every
other character is emitted as itself.  Modelled from the spec: the struct
tag string "must be re-quoted/escaped exactly so the emitted source, when
parsed back, yields the identical original string". -/
def quoteChars : List Char → List Char
  | [] => []
  | c :: cs =>
    (if c = '"' then ['\\', '"']
     else if c = '\\' then ['\\', '\\']
     else [c]) ++ quoteChars cs

/-- Quote a string as a Go string literal (see `quoteChars`). -/
def goQuote (s : String) : String :=
  String.mk ('"' :: (quoteChars s.data ++ ['"']))

/-- Parse the character list following the opening `"` of a Go string
literal: backslash escapes for `"` and `\`, and the literal must end at
its closing quote.  Returns `none` on any malformed input.  Modelled from
the spec's round-trip requirement (this is the "parsed back" direction). -/
def parseQuotedAux : List Char → Option (List Char)
  | [] => none
  | c :: rest =>
    if c = '\\' then
      match rest with
      | [] => none
      | d :: rest2 =>
        if d = '"' ∨ d = '\\' then (parseQuotedAux rest2).map (d :: ·) else none
    else if c = '"' then (if rest = [] then some [] else none)
    else (parseQuotedAux rest).map (c :: ·)

/-- Parse a complete Go string literal back to the string it denotes. -/
def parseGoString (s : String) : Option String :=
  match s.data with
  | '"' :: rest => (parseQuotedAux rest).map String.mk
  | _ => none

/-- Print one chained call as source text. -/
def ChainedCall.print : ChainedCall → String
  | .noArg m => "." ++ m ++ "()"
  | .strArg m a => "." ++ m ++ "(" ++ goQuote a ++ ")"
  | .strList m args =>
      "." ++ m ++ "(" ++ String.intercalate ", " (args.map goQuote) ++ ")"

/-- Print a fragment as source text, e.g. `field.String("x").Optional()`. -/
def Fragment.print (f : Fragment) : String :=
  "field." ++ f.ctor ++ "(" ++ goQuote f.name ++ ")"
    ++ String.join (f.calls.map ChainedCall.print)

/-- The chained calls of a descriptor's representable modifiers, in the
fixed canonical order.  Modelled from the spec: enum value list or
named-value mapping, then the no-argument modifiers, then StorageKey,
then StructTag; the order modifiers were set on the descriptor is
irrelevant. -/
def fragCalls (d : FieldDescriptor) : List ChainedCall :=
  (if d.enumValues ≠ [] then [ChainedCall.strList "Values" d.enumValues] else [])
  ++ (if d.enumNamedValues ≠ [] then
        [ChainedCall.strList "NamedValues"
          (d.enumNamedValues.flatMap (fun p => [p.1, p.2]))]
      else [])
  ++ (if d.optional then [ChainedCall.noArg "Optional"] else [])
  ++ (if d.unique then [ChainedCall.noArg "Unique"] else [])
  ++ (if d.immutable then [ChainedCall.noArg "Immutable"] else [])
  ++ (if d.nillable then [ChainedCall.noArg "Nillable"] else [])
  ++ (match d.storageKey with
      | some k => [ChainedCall.strArg "StorageKey" k]
      | none => [])
  ++ (match d.structTag with
      | some t => [ChainedCall.strArg "StructTag" t]
      | none => [])

/-- The `UnsupportedFeature` messages of the non-representable modifiers
present on a descriptor, in the fixed order Annotations, Default,
Validators.  Modelled from the spec: each present modifier contributes one
message; they are later joined with "; ". -/
def unsupportedMsgs (d : FieldDescriptor) : List String :=
  (if d.annots then ["schemast: unsupported feature Descriptor.Annotations"] else [])
  ++ (if d.hasDefault then ["schemast: unsupported feature Descriptor.Default"] else [])
  ++ (if d.validators > 0 then ["schemast: unsupported feature Descriptor.Validators"] else [])

/-- The descriptor translator `Field(descriptor) -> (Fragment, error)`.
Modelled from the spec: fails with `UnsupportedType` naming the kind when
the kind has no table entry; otherwise collects every `UnsupportedFeature`
error of the descriptor and returns them joined with "; " as one combined
error; on success returns the base call with the chained modifier calls in
canonical order. -/
def Field (d : FieldDescriptor) : Except String Fragment :=
  match constructorOf d.kind with
  | none => .error ("schemast: unsupported type " ++ d.kind.kindName)
  | some ctor =>
    match unsupportedMsgs d with
    | [] => .ok ⟨ctor, d.name, fragCalls d⟩
    | msgs => .error (String.intercalate "; " msgs)

/-! ## Context model -/

/-- The return expression of a `Fields`/`Edges` method: by the Context
invariant it is either the identifier `nil` or a slice literal of
fragments. -/
inductive RetExpr where
  | nilIdent
  | sliceLit (elems : List Fragment)
deriving DecidableEq, Repr

/-- The state of one method of a type, as seen through `lookupMethod` and
the return-statement resolvers.  Modelled from the spec: the method may be
absent (`MethodNotFound`), present but not of the invariant one-return
shape (`MalformedMethod`), or well-formed with a return expression. -/
inductive MethodState where
  | absent
  | malformed
  | wellFormed (ret : RetExpr)
deriving DecidableEq, Repr

/-- One declared schema type: the states of its `Fields` and `Edges`
methods. -/
structure TypeEntry where
  fieldsM : MethodState
  edgesM : MethodState
deriving DecidableEq, Repr

/-- The Context: registry from declared type name to its entry.  Names are
unique within a Context (the association list is read through its first
binding). -/
structure Context where
  types : List (String × TypeEntry)
deriving DecidableEq, Repr

/-- Look up a type entry by name. -/
def Context.findType (ctx : Context) (name : String) : Option TypeEntry :=
  (ctx.types.find? (fun p => p.1 == name)).map (·.2)

/-- `HasType(name)`: true iff a type entry with that name exists.
Modelled from the spec. -/
def Context.HasType (ctx : Context) (name : String) : Bool :=
  (ctx.findType name).isSome

/-- `AddType(name)`: fails if the type already exists; otherwise registers
a minimal type whose two methods each return `nil`.  Modelled from the
spec. -/
def Context.AddType (ctx : Context) (name : String) : Except String Context :=
  if ctx.HasType name then
    .error ("schemast: type " ++ name ++ " already exists")
  else
    .ok ⟨ctx.types ++ [(name, ⟨.wellFormed .nilIdent, .wellFormed .nilIdent⟩)]⟩

/-- The `MethodNotFound` message, as fixed by the tests. -/
def methodNotFoundMsg (method typeName : String) : String :=
  "schemast: could not find method " ++ goQuote method ++ " for type " ++ goQuote typeName

/-- The `FieldNotFound` message, as fixed by the tests. -/
def fieldNotFoundMsg (fieldName typeName : String) : String :=
  "schemast: could not find field " ++ goQuote fieldName ++ " in type " ++ goQuote typeName

/-- Resolve one method state of a type to its return expression: fails
with `MethodNotFound` if the type or the method is absent, with a
`MalformedMethod` error if the method is not of the invariant shape.
Modelled from the spec (`lookupMethod` followed by the one-return-statement
assertion). -/
def resolveMethod (ctx : Context) (typeName method : String)
    (proj : TypeEntry → MethodState) : Except String RetExpr :=
  match ctx.findType typeName with
  | none => .error (methodNotFoundMsg method typeName)
  | some entry =>
    match proj entry with
    | .absent => .error (methodNotFoundMsg method typeName)
    | .malformed =>
        .error ("schemast: method " ++ method ++ " of type " ++ typeName ++ " is malformed")
    | .wellFormed r => .ok r

/-- `fieldsReturnStmt(typeName)`: the Fields method's return expression.
Modelled from the spec. -/
def Context.fieldsReturnStmt (ctx : Context) (typeName : String) : Except String RetExpr :=
  resolveMethod ctx typeName "Fields" TypeEntry.fieldsM

/-- `edgesReturnStmt(typeName)`: the Edges method's return expression.
Modelled from the spec. -/
def Context.edgesReturnStmt (ctx : Context) (typeName : String) : Except String RetExpr :=
  resolveMethod ctx typeName "Edges" TypeEntry.edgesM

/-- Update the entry of the named type in place, leaving all other
entries untouched. -/
def Context.updType (ctx : Context) (typeName : String) (g : TypeEntry → TypeEntry) : Context :=
  ⟨ctx.types.map (fun p => if p.1 == typeName then (p.1, g p.2) else p)⟩

/-- Overwrite the Fields return expression of the named type (the model of
assigning through the resolved return statement's pointer). -/
def Context.setFieldsRet (ctx : Context) (typeName : String) (r : RetExpr) : Context :=
  ctx.updType typeName (fun t => ⟨.wellFormed r, t.edgesM⟩)

/-- Overwrite the Edges return expression of the named type. -/
def Context.setEdgesRet (ctx : Context) (typeName : String) (r : RetExpr) : Context :=
  ctx.updType typeName (fun t => ⟨t.fieldsM, .wellFormed r⟩)

/-- `AppendField(typeName, descriptor)`: translate the descriptor, resolve
the Fields return statement; a `nil` return expression becomes a
one-element slice literal, a slice literal gets the fragment appended as a
new trailing element.  Modelled from the spec. -/
def Context.AppendField (ctx : Context) (typeName : String)
    (d : FieldDescriptor) : Except String Context :=
  match Field d with
  | .error e => .error e
  | .ok frag =>
    match ctx.fieldsReturnStmt typeName with
    | .error e => .error e
    | .ok .nilIdent => .ok (ctx.setFieldsRet typeName (.sliceLit [frag]))
    | .ok (.sliceLit es) => .ok (ctx.setFieldsRet typeName (.sliceLit (es ++ [frag])))

/-- An edge descriptor.  Modelled from the spec: the spec specifies edges
only as the structural mirror of fields, so the model keeps the parts the
claims need: a name and whether translation succeeds. -/
structure EdgeDescriptor where
  name : String
  annots : Bool := false
deriving DecidableEq, Repr

/-- The edge translator, structural mirror of `Field`.  Modelled from the
spec. -/
def Edge (d : EdgeDescriptor) : Except String Fragment :=
  if d.annots then
    .error "schemast: unsupported feature Descriptor.Annotations"
  else
    .ok ⟨"To", d.name, []⟩

/-- `AppendEdge(typeName, descriptor)`: structural mirror of
`AppendField` over the Edges method.  Modelled from the spec. -/
def Context.AppendEdge (ctx : Context) (typeName : String)
    (d : EdgeDescriptor) : Except String Context :=
  match Edge d with
  | .error e => .error e
  | .ok frag =>
    match ctx.edgesReturnStmt typeName with
    | .error e => .error e
    | .ok .nilIdent => .ok (ctx.setEdgesRet typeName (.sliceLit [frag]))
    | .ok (.sliceLit es) => .ok (ctx.setEdgesRet typeName (.sliceLit (es ++ [frag])))

/-- Whether a fragment's base-call first argument is the given string
literal (the match used by `RemoveField`). -/
def fragMatches (f : Fragment) (fieldName : String) : Bool :=
  f.name == fieldName

/-- Remove the first element matching the field name. -/
def removeFirst (fieldName : String) : List Fragment → List Fragment
  | [] => []
  | f :: fs =>
    if fragMatches f fieldName then fs else f :: removeFirst fieldName fs

/-- `RemoveField(typeName, fieldName)`: resolve the Fields return
statement; fail with `FieldNotFound` naming both names when it is `nil`
or a slice literal with no matching element; otherwise remove exactly the
one matching element, keeping the remainder in order (an emptied element
set stays an empty slice literal).  Modelled from the spec. -/
def Context.RemoveField (ctx : Context) (typeName fieldName : String) :
    Except String Context :=
  match ctx.fieldsReturnStmt typeName with
  | .error e => .error e
  | .ok .nilIdent => .error (fieldNotFoundMsg fieldName typeName)
  | .ok (.sliceLit es) =>
    if es.any (fragMatches · fieldName) then
      .ok (ctx.setFieldsRet typeName (.sliceLit (removeFirst fieldName es)))
    else
      .error (fieldNotFoundMsg fieldName typeName)

/-! ## Mutators (embedded from `mutate.go`)

Go mutators edit the Context in place and return an `error`; an early
error return leaves the mutations already performed visible.  The
embedding makes the state explicit: a mutator takes a `Context` and
returns the (possibly partially) mutated `Context` together with
`none` for a nil error or `some msg` for a non-nil error. -/

/-- A `Mutator` changes a Context (interface `Mutator` of `mutate.go`),
embedded as a state-passing function returning the mutated context and an
optional error. -/
def Mutator := Context → Context × Option String

/-- `Mutate` of `mutate.go`: applies a sequence of mutations to a Context,
returning on the first non-nil error. -/
def Mutate (ctx : Context) : List Mutator → Context × Option String
  | [] => (ctx, none)
  | m :: ms =>
    match m ctx with
    | (c, some e) => (c, some e)
    | (c, none) => Mutate c ms

/-- The `UpsertSchema` mutator struct of `mutate.go`: a type name, the
desired field descriptor list and the desired edge descriptor list (the
Go struct holds `ent.Field`/`ent.Edge` values whose `Descriptor()` is
taken at append time; the embedding holds the descriptors directly). -/
structure UpsertSchema where
  Name : String
  Fields : List FieldDescriptor := []
  Edges : List EdgeDescriptor := []

/-- The `AppendField` loop of `UpsertSchema.Mutate`: append each
descriptor in list order, stopping at the first error and keeping the
context state reached at that point. -/
def appendFields (name : String) : Context → List FieldDescriptor → Context × Option String
  | ctx, [] => (ctx, none)
  | ctx, d :: ds =>
    match ctx.AppendField name d with
    | .error e => (ctx, some e)
    | .ok ctx2 => appendFields name ctx2 ds

/-- The `AppendEdge` loop of `UpsertSchema.Mutate`. -/
def appendEdges (name : String) : Context → List EdgeDescriptor → Context × Option String
  | ctx, [] => (ctx, none)
  | ctx, d :: ds =>
    match ctx.AppendEdge name d with
    | .error e => (ctx, some e)
    | .ok ctx2 => appendEdges name ctx2 ds

/-- `UpsertSchema.Mutate` of `mutate.go`: add the type when missing,
resolve and reset the Fields return expression to `nil`, resolve and
reset the Edges return expression to `nil`, then replay `AppendField` for
every field and `AppendEdge` for every edge, aborting on the first
error. -/
def UpsertSchema.Mutate (u : UpsertSchema) (ctx : Context) : Context × Option String :=
  let step1 : Context × Option String :=
    if ctx.HasType u.Name then (ctx, none)
    else
      match ctx.AddType u.Name with
      | .error e => (ctx, some e)
      | .ok c => (c, none)
  match step1 with
  | (c, some e) => (c, some e)
  | (c, none) =>
    match c.fieldsReturnStmt u.Name with
    | .error e => (c, some e)
    | .ok _ =>
      let c2 := c.setFieldsRet u.Name .nilIdent
      match c2.edgesReturnStmt u.Name with
      | .error e => (c2, some e)
      | .ok _ =>
        let c3 := c2.setEdgesRet u.Name .nilIdent
        match appendFields u.Name c3 u.Fields with
        | (c4, some e) => (c4, some e)
        | (c4, none) => appendEdges u.Name c4 u.Edges

/-! ## Derived notions used by the specification statements -/

/-- The element list of a return expression: `nil` holds no fragments. -/
def RetExpr.elems : RetExpr → List Fragment
  | .nilIdent => []
  | .sliceLit es => es

/-- Appending one fragment to a return expression, as `AppendField` does:
`nil` becomes a one-element slice literal, a slice literal grows by one
trailing element. -/
def RetExpr.append1 : RetExpr → Fragment → RetExpr
  | .nilIdent, f => .sliceLit [f]
  | .sliceLit es, f => .sliceLit (es ++ [f])

/-- Appending a list of fragments one by one. -/
def RetExpr.appendAll : RetExpr → List Fragment → RetExpr
  | r, [] => r
  | r, f :: fs => RetExpr.appendAll (r.append1 f) fs

/-- The return expression obtained by appending a fragment list to a
fresh `nil` expression: `nil` for the empty list, otherwise the slice
literal of exactly those fragments in order. -/
def retOfFrags : List Fragment → RetExpr
  | [] => .nilIdent
  | fs => .sliceLit fs

/-- Translate a list of field descriptors, stopping at the first error. -/
def translateAll : List FieldDescriptor → Except String (List Fragment)
  | [] => .ok []
  | d :: ds =>
    match Field d with
    | .error e => .error e
    | .ok f =>
      match translateAll ds with
      | .error e => .error e
      | .ok fs => .ok (f :: fs)

/-- Translate a list of edge descriptors, stopping at the first error. -/
def translateEdges : List EdgeDescriptor → Except String (List Fragment)
  | [] => .ok []
  | d :: ds =>
    match Edge d with
    | .error e => .error e
    | .ok f =>
      match translateEdges ds with
      | .error e => .error e
      | .ok fs => .ok (f :: fs)

/-- Whether every mutator in the list succeeds when run in sequence from
the given context. -/
def allOk (ctx : Context) : List Mutator → Bool
  | [] => true
  | m :: ms =>
    match m ctx with
    | (_, some _) => false
    | (c, none) => allOk c ms

/-- The number of elements of a fragment list whose base-call first
argument is the given field name. -/
def countMatches (fieldName : String) (es : List Fragment) : Nat :=
  (es.filter (fragMatches · fieldName)).length

/-! ## Concrete example data (mirroring the repository's test fixtures) -/

/-- A type entry in the freshly-added state: both methods return `nil`. -/
def freshEntry : TypeEntry := ⟨.wellFormed .nilIdent, .wellFormed .nilIdent⟩

/-- A context holding one type `T` whose methods both return `nil`
(the `WithNilFields` fixture shape). -/
def exCtx : Context := ⟨[("T", freshEntry)]⟩

/-- A context whose type `T` has a one-element Fields slice literal and a
`nil` Edges return (the `WithModifiedField` fixture shape). -/
def exCtxName : Context :=
  ⟨[("T", ⟨.wellFormed (.sliceLit [⟨"String", "name", []⟩]), .wellFormed .nilIdent⟩)]⟩

/-- A context whose type `T` has a well-formed Fields method but no Edges
method at all (the shape that makes `edgesReturnStmt` fail). -/
def exCtxNoEdges : Context := ⟨[("T", ⟨.wellFormed .nilIdent, .absent⟩)]⟩

/-- `field.String("a")`. -/
def dStrA : FieldDescriptor := { kind := .string, name := "a" }

/-- `field.String("b")`. -/
def dStrB : FieldDescriptor := { kind := .string, name := "b" }

/-- `field.Int64("c")`. -/
def dInt64C : FieldDescriptor := { kind := .int64, name := "c" }

/-- `field.JSON("json_field", ...)`: unsupported kind. -/
def dJSON : FieldDescriptor := { kind := .json, name := "json_field" }

/-- `field.String("x").StructTag(...)` with an embedded double quote. -/
def dTag : FieldDescriptor := { kind := .string, name := "x", structTag := some "j:\"hi\"" }

/-- A descriptor whose translation fails (`Annotations` present). -/
def dBad : FieldDescriptor := { kind := .string, name := "bad", annots := true }

/-- An edge descriptor whose translation fails (`Annotations` present). -/
def eBad : EdgeDescriptor := { name := "bad", annots := true }

/-- A mutator that changes nothing and succeeds. -/
def mId : Mutator := fun c => (c, none)

/-- A mutator that changes nothing and fails with a fixed error. -/
def mBoom : Mutator := fun c => (c, some "boom")

/-- A mutator whose side effect (adding type `Marker`) marks that it
ran. -/
def mMark : Mutator := fun c =>
  match c.AddType "Marker" with
  | .error e => (c, some e)
  | .ok c2 => (c2, none)

/-! ## Registry lemmas -/

theorem find_upd (l : List (String × TypeEntry)) (tn : String) (g : TypeEntry → TypeEntry) :
    ((l.map (fun p => if p.1 == tn then (p.1, g p.2) else p)).find? (fun p => p.1 == tn))
      = (l.find? (fun p => p.1 == tn)).map (fun p => (p.1, g p.2)) := by
  induction l with
  | nil => rfl
  | cons p l ih =>
    cases h : (p.1 == tn) with
    | true =>
      have h1 : (if (p.1 == tn) = true then (p.1, g p.2) else p) = (p.1, g p.2) := if_pos h
      simp only [List.map_cons, List.find?]
      rw [h1]
      simp [h]
    | false =>
      have h1 : (if (p.1 == tn) = true then (p.1, g p.2) else p) = p := if_neg (by simp [h])
      simp only [List.map_cons, List.find?]
      rw [h1]
      simp only [h]
      exact ih

theorem findType_updType (ctx : Context) (tn : String) (g : TypeEntry → TypeEntry) :
    (ctx.updType tn g).findType tn = (ctx.findType tn).map g := by
  show ((ctx.types.map _).find? _).map _ = _
  rw [find_upd]
  unfold Context.findType
  cases ctx.types.find? (fun p => p.1 == tn) <;> rfl

theorem findType_setFieldsRet (ctx : Context) (tn : String) (r : RetExpr) :
    (ctx.setFieldsRet tn r).findType tn
      = (ctx.findType tn).map (fun t => ⟨.wellFormed r, t.edgesM⟩) :=
  findType_updType ctx tn _

theorem findType_setEdgesRet (ctx : Context) (tn : String) (r : RetExpr) :
    (ctx.setEdgesRet tn r).findType tn
      = (ctx.findType tn).map (fun t => ⟨t.fieldsM, .wellFormed r⟩) :=
  findType_updType ctx tn _

theorem hasType_of_findType (ctx : Context) (tn : String) (t : TypeEntry)
    (h : ctx.findType tn = some t) : ctx.HasType tn = true := by
  unfold Context.HasType
  rw [h]
  rfl

theorem fieldsReturnStmt_of_findType (ctx : Context) (tn : String) (t : TypeEntry)
    (r : RetExpr) (hft : ctx.findType tn = some t) (hfm : t.fieldsM = .wellFormed r) :
    ctx.fieldsReturnStmt tn = .ok r := by
  unfold Context.fieldsReturnStmt resolveMethod
  rw [hft]
  simp [hfm]

theorem edgesReturnStmt_of_findType (ctx : Context) (tn : String) (t : TypeEntry)
    (r : RetExpr) (hft : ctx.findType tn = some t) (hem : t.edgesM = .wellFormed r) :
    ctx.edgesReturnStmt tn = .ok r := by
  unfold Context.edgesReturnStmt resolveMethod
  rw [hft]
  simp [hem]

theorem fieldsReturnStmt_ok_inv (ctx : Context) (tn : String) (r : RetExpr)
    (h : ctx.fieldsReturnStmt tn = .ok r) :
    ∃ t, ctx.findType tn = some t ∧ t.fieldsM = .wellFormed r := by
  unfold Context.fieldsReturnStmt resolveMethod at h
  cases hft : ctx.findType tn with
  | none => rw [hft] at h; exact absurd h (by simp)
  | some t =>
    rw [hft] at h
    cases hfm : t.fieldsM with
    | absent => simp [hfm] at h
    | malformed => simp [hfm] at h
    | wellFormed r2 =>
      simp [hfm] at h
      exact ⟨t, rfl, by rw [hfm, h]⟩

theorem edgesReturnStmt_setFieldsRet (ctx : Context) (tn : String) (r : RetExpr) :
    (ctx.setFieldsRet tn r).edgesReturnStmt tn = ctx.edgesReturnStmt tn := by
  unfold Context.edgesReturnStmt resolveMethod
  rw [findType_setFieldsRet]
  cases ctx.findType tn <;> rfl

theorem fieldsReturnStmt_setEdgesRet (ctx : Context) (tn : String) (r : RetExpr) :
    (ctx.setEdgesRet tn r).fieldsReturnStmt tn = ctx.fieldsReturnStmt tn := by
  unfold Context.fieldsReturnStmt resolveMethod
  rw [findType_setEdgesRet]
  cases ctx.findType tn <;> rfl

/-! ## Append lemmas -/

theorem appendAll_sliceLit (es fs : List Fragment) :
    RetExpr.appendAll (.sliceLit es) fs = .sliceLit (es ++ fs) := by
  induction fs generalizing es with
  | nil => simp [RetExpr.appendAll]
  | cons f fs ih => simp [RetExpr.appendAll, RetExpr.append1, ih]

theorem appendAll_nilIdent (fs : List Fragment) :
    RetExpr.appendAll .nilIdent fs = retOfFrags fs := by
  cases fs with
  | nil => rfl
  | cons f fs =>
    show RetExpr.appendAll (.sliceLit [f]) fs = _
    rw [appendAll_sliceLit]
    rfl

theorem elems_retOfFrags (fs : List Fragment) : (retOfFrags fs).elems = fs := by
  cases fs <;> rfl

theorem appendField_ok (ctx : Context) (tn : String) (d : FieldDescriptor)
    (f : Fragment) (r : RetExpr) (hd : Field d = .ok f)
    (hr : ctx.fieldsReturnStmt tn = .ok r) :
    ctx.AppendField tn d = .ok (ctx.setFieldsRet tn (r.append1 f)) := by
  unfold Context.AppendField
  rw [hd, hr]
  cases r <;> rfl

theorem appendEdge_ok (ctx : Context) (tn : String) (d : EdgeDescriptor)
    (f : Fragment) (r : RetExpr) (hd : Edge d = .ok f)
    (hr : ctx.edgesReturnStmt tn = .ok r) :
    ctx.AppendEdge tn d = .ok (ctx.setEdgesRet tn (r.append1 f)) := by
  unfold Context.AppendEdge
  rw [hd, hr]
  cases r <;> rfl

theorem translateAll_cons_ok (d : FieldDescriptor) (ds : List FieldDescriptor)
    (fs : List Fragment) (h : translateAll (d :: ds) = .ok fs) :
    ∃ f fs2, Field d = .ok f ∧ translateAll ds = .ok fs2 ∧ fs = f :: fs2 := by
  unfold translateAll at h
  cases hd : Field d with
  | error e => rw [hd] at h; simp at h
  | ok f =>
    rw [hd] at h
    cases hds : translateAll ds with
    | error e => rw [hds] at h; simp at h
    | ok fs2 =>
      rw [hds] at h
      simp at h
      exact ⟨f, fs2, rfl, rfl, h.symm⟩

theorem translateEdges_cons_ok (d : EdgeDescriptor) (ds : List EdgeDescriptor)
    (fs : List Fragment) (h : translateEdges (d :: ds) = .ok fs) :
    ∃ f fs2, Edge d = .ok f ∧ translateEdges ds = .ok fs2 ∧ fs = f :: fs2 := by
  unfold translateEdges at h
  cases hd : Edge d with
  | error e => rw [hd] at h; simp at h
  | ok f =>
    rw [hd] at h
    cases hds : translateEdges ds with
    | error e => rw [hds] at h; simp at h
    | ok fs2 =>
      rw [hds] at h
      simp at h
      exact ⟨f, fs2, rfl, rfl, h.symm⟩

theorem appendFields_ok (tn : String) (ds : List FieldDescriptor) :
    ∀ (fs : List Fragment) (ctx : Context) (t : TypeEntry) (r : RetExpr),
      translateAll ds = .ok fs →
      ctx.findType tn = some t → t.fieldsM = .wellFormed r →
      ∃ ctx2, appendFields tn ctx ds = (ctx2, none) ∧
        ctx2.findType tn = some ⟨.wellFormed (r.appendAll fs), t.edgesM⟩ := by
  induction ds with
  | nil =>
    intro fs ctx t r htr hft hfm
    have hfs : fs = [] := by
      unfold translateAll at htr
      simp at htr
      exact htr
    subst hfs
    refine ⟨ctx, rfl, ?_⟩
    rw [hft]
    cases t
    simp at hfm
    rw [hfm]
    rfl
  | cons d ds ih =>
    intro fs ctx t r htr hft hfm
    obtain ⟨f, fs2, hd, hds, rfl⟩ := translateAll_cons_ok d ds fs htr
    have hr : ctx.fieldsReturnStmt tn = .ok r := fieldsReturnStmt_of_findType ctx tn t r hft hfm
    have hstep := appendField_ok ctx tn d f r hd hr
    have hft2 : (ctx.setFieldsRet tn (r.append1 f)).findType tn
        = some ⟨.wellFormed (r.append1 f), t.edgesM⟩ := by
      rw [findType_setFieldsRet, hft]
      rfl
    obtain ⟨ctx2, h2, h3⟩ :=
      ih fs2 (ctx.setFieldsRet tn (r.append1 f)) ⟨.wellFormed (r.append1 f), t.edgesM⟩
        (r.append1 f) hds hft2 rfl
    refine ⟨ctx2, ?_, h3⟩
    show appendFields tn ctx (d :: ds) = (ctx2, none)
    unfold appendFields
    rw [hstep]
    exact h2

theorem appendEdges_ok (tn : String) (ds : List EdgeDescriptor) :
    ∀ (fs : List Fragment) (ctx : Context) (t : TypeEntry) (r : RetExpr),
      translateEdges ds = .ok fs →
      ctx.findType tn = some t → t.edgesM = .wellFormed r →
      ∃ ctx2, appendEdges tn ctx ds = (ctx2, none) ∧
        ctx2.findType tn = some ⟨t.fieldsM, .wellFormed (r.appendAll fs)⟩ := by
  induction ds with
  | nil =>
    intro fs ctx t r htr hft hem
    have hfs : fs = [] := by
      unfold translateEdges at htr
      simp at htr
      exact htr
    subst hfs
    refine ⟨ctx, rfl, ?_⟩
    rw [hft]
    cases t
    simp at hem
    rw [hem]
    rfl
  | cons d ds ih =>
    intro fs ctx t r htr hft hem
    obtain ⟨f, fs2, hd, hds, rfl⟩ := translateEdges_cons_ok d ds fs htr
    have hr : ctx.edgesReturnStmt tn = .ok r := edgesReturnStmt_of_findType ctx tn t r hft hem
    have hstep := appendEdge_ok ctx tn d f r hd hr
    have hft2 : (ctx.setEdgesRet tn (r.append1 f)).findType tn
        = some ⟨t.fieldsM, .wellFormed (r.append1 f)⟩ := by
      rw [findType_setEdgesRet, hft]
      rfl
    obtain ⟨ctx2, h2, h3⟩ :=
      ih fs2 (ctx.setEdgesRet tn (r.append1 f)) ⟨t.fieldsM, .wellFormed (r.append1 f)⟩
        (r.append1 f) hds hft2 rfl
    refine ⟨ctx2, ?_, h3⟩
    show appendEdges tn ctx (d :: ds) = (ctx2, none)
    unfold appendEdges
    rw [hstep]
    exact h2

theorem appendFields_fail (tn : String) (ds1 : List FieldDescriptor) :
    ∀ (fs1 : List Fragment) (d : FieldDescriptor) (ds2 : List FieldDescriptor)
      (e : String) (ctx : Context) (t : TypeEntry) (r : RetExpr),
      translateAll ds1 = .ok fs1 → Field d = .error e →
      ctx.findType tn = some t → t.fieldsM = .wellFormed r →
      ∃ ctx2, appendFields tn ctx (ds1 ++ d :: ds2) = (ctx2, some e) ∧
        ctx2.findType tn = some ⟨.wellFormed (r.appendAll fs1), t.edgesM⟩ := by
  induction ds1 with
  | nil =>
    intro fs1 d ds2 e ctx t r htr hd hft hfm
    have hfs : fs1 = [] := by
      unfold translateAll at htr
      simp at htr
      exact htr
    subst hfs
    refine ⟨ctx, ?_, ?_⟩
    · show appendFields tn ctx (d :: ds2) = (ctx, some e)
      unfold appendFields Context.AppendField
      rw [hd]
    · rw [hft]
      cases t
      simp at hfm
      rw [hfm]
      rfl
  | cons d1 ds1 ih =>
    intro fs1 d ds2 e ctx t r htr hd hft hfm
    obtain ⟨f, fs2, hd1, hds, rfl⟩ := translateAll_cons_ok d1 ds1 fs1 htr
    have hr : ctx.fieldsReturnStmt tn = .ok r := fieldsReturnStmt_of_findType ctx tn t r hft hfm
    have hstep := appendField_ok ctx tn d1 f r hd1 hr
    have hft2 : (ctx.setFieldsRet tn (r.append1 f)).findType tn
        = some ⟨.wellFormed (r.append1 f), t.edgesM⟩ := by
      rw [findType_setFieldsRet, hft]
      rfl
    obtain ⟨ctx2, h2, h3⟩ :=
      ih fs2 d ds2 e (ctx.setFieldsRet tn (r.append1 f))
        ⟨.wellFormed (r.append1 f), t.edgesM⟩ (r.append1 f) hds hd hft2 rfl
    refine ⟨ctx2, ?_, h3⟩
    show appendFields tn ctx ((d1 :: ds1) ++ d :: ds2) = (ctx2, some e)
    rw [List.cons_append]
    unfold appendFields
    rw [hstep]
    exact h2

theorem appendEdges_fail (tn : String) (ds1 : List EdgeDescriptor) :
    ∀ (gs1 : List Fragment) (d : EdgeDescriptor) (ds2 : List EdgeDescriptor)
      (e : String) (ctx : Context) (t : TypeEntry) (r : RetExpr),
      translateEdges ds1 = .ok gs1 → Edge d = .error e →
      ctx.findType tn = some t → t.edgesM = .wellFormed r →
      ∃ ctx2, appendEdges tn ctx (ds1 ++ d :: ds2) = (ctx2, some e) ∧
        ctx2.findType tn = some ⟨t.fieldsM, .wellFormed (r.appendAll gs1)⟩ := by
  induction ds1 with
  | nil =>
    intro gs1 d ds2 e ctx t r htr hd hft hem
    have hfs : gs1 = [] := by
      unfold translateEdges at htr
      simp at htr
      exact htr
    subst hfs
    refine ⟨ctx, ?_, ?_⟩
    · show appendEdges tn ctx (d :: ds2) = (ctx, some e)
      unfold appendEdges Context.AppendEdge
      rw [hd]
    · rw [hft]
      cases t
      simp at hem
      rw [hem]
      rfl
  | cons d1 ds1 ih =>
    intro gs1 d ds2 e ctx t r htr hd hft hem
    obtain ⟨f, gs2, hd1, hds, rfl⟩ := translateEdges_cons_ok d1 ds1 gs1 htr
    have hr : ctx.edgesReturnStmt tn = .ok r := edgesReturnStmt_of_findType ctx tn t r hft hem
    have hstep := appendEdge_ok ctx tn d1 f r hd1 hr
    have hft2 : (ctx.setEdgesRet tn (r.append1 f)).findType tn
        = some ⟨t.fieldsM, .wellFormed (r.append1 f)⟩ := by
      rw [findType_setEdgesRet, hft]
      rfl
    obtain ⟨ctx2, h2, h3⟩ :=
      ih gs2 d ds2 e (ctx.setEdgesRet tn (r.append1 f))
        ⟨t.fieldsM, .wellFormed (r.append1 f)⟩ (r.append1 f) hds hd hft2 rfl
    refine ⟨ctx2, ?_, h3⟩
    show appendEdges tn ctx ((d1 :: ds1) ++ d :: ds2) = (ctx2, some e)
    rw [List.cons_append]
    unfold appendEdges
    rw [hstep]
    exact h2

/-! ## Remove lemmas -/

theorem removeFirst_split (fn : String) (pre post : List Fragment) (mat : Fragment)
    (hpre : ∀ f ∈ pre, fragMatches f fn = false) (hmat : fragMatches mat fn = true) :
    removeFirst fn (pre ++ mat :: post) = pre ++ post := by
  induction pre with
  | nil =>
    show removeFirst fn (mat :: post) = post
    unfold removeFirst
    simp [hmat]
  | cons f pre ih =>
    have hf : fragMatches f fn = false := hpre f (by simp)
    show removeFirst fn (f :: (pre ++ mat :: post)) = f :: (pre ++ post)
    unfold removeFirst
    simp [hf, ih (fun g hg => hpre g (by simp [hg]))]

theorem countMatches_zero_any (fn : String) (es : List Fragment)
    (h : countMatches fn es = 0) : es.any (fragMatches · fn) = false := by
  induction es with
  | nil => rfl
  | cons f fs ih =>
    unfold countMatches at h
    cases hf : fragMatches f fn with
    | true => rw [List.filter_cons, hf] at h; simp at h
    | false =>
      rw [List.filter_cons, hf] at h
      simp only [List.any_cons, hf, Bool.false_or]
      exact ih h

theorem removeFirst_count (fn : String) (es : List Fragment)
    (h : countMatches fn es = 1) :
    (removeFirst fn es).any (fragMatches · fn) = false := by
  induction es with
  | nil => rfl
  | cons f fs ih =>
    unfold countMatches at h
    cases hf : fragMatches f fn with
    | true =>
      rw [List.filter_cons, hf] at h
      have h2 : countMatches fn fs = 0 := by
        unfold countMatches
        simpa using h
      unfold removeFirst
      simp only [hf, if_pos rfl]
      exact countMatches_zero_any fn fs h2
    | false =>
      rw [List.filter_cons, hf] at h
      unfold removeFirst
      simp only [hf]
      rw [if_neg (by simp)]
      simp only [List.any_cons, hf, Bool.false_or]
      exact ih h

/-! ## Upsert lemmas -/

theorem upsert_ok (u : UpsertSchema) (ctx : Context) (t : TypeEntry)
    (rf re : RetExpr) (fs gs : List Fragment)
    (hft : ctx.findType u.Name = some t)
    (hf : t.fieldsM = .wellFormed rf) (he : t.edgesM = .wellFormed re)
    (htf : translateAll u.Fields = .ok fs) (hte : translateEdges u.Edges = .ok gs) :
    ∃ ctx2, u.Mutate ctx = (ctx2, none) ∧
      ctx2.findType u.Name
        = some ⟨.wellFormed (retOfFrags fs), .wellFormed (retOfFrags gs)⟩ := by
  have hty : ctx.HasType u.Name = true := hasType_of_findType ctx u.Name t hft
  have hfr : ctx.fieldsReturnStmt u.Name = .ok rf :=
    fieldsReturnStmt_of_findType ctx u.Name t rf hft hf
  have hc2ft : (ctx.setFieldsRet u.Name .nilIdent).findType u.Name
      = some ⟨.wellFormed .nilIdent, t.edgesM⟩ := by
    rw [findType_setFieldsRet, hft]
    rfl
  have her : (ctx.setFieldsRet u.Name .nilIdent).edgesReturnStmt u.Name = .ok re := by
    rw [edgesReturnStmt_setFieldsRet]
    exact edgesReturnStmt_of_findType ctx u.Name t re hft he
  have hc3ft : ((ctx.setFieldsRet u.Name .nilIdent).setEdgesRet u.Name .nilIdent).findType u.Name
      = some ⟨.wellFormed .nilIdent, .wellFormed .nilIdent⟩ := by
    rw [findType_setEdgesRet, hc2ft]
    rfl
  obtain ⟨c4, h4, h4ft⟩ :=
    appendFields_ok u.Name u.Fields fs
      ((ctx.setFieldsRet u.Name .nilIdent).setEdgesRet u.Name .nilIdent)
      ⟨.wellFormed .nilIdent, .wellFormed .nilIdent⟩ .nilIdent htf hc3ft rfl
  obtain ⟨c5, h5, h5ft⟩ :=
    appendEdges_ok u.Name u.Edges gs c4
      ⟨.wellFormed (RetExpr.appendAll .nilIdent fs), .wellFormed .nilIdent⟩ .nilIdent
      hte h4ft rfl
  refine ⟨c5, ?_, ?_⟩
  · simp [UpsertSchema.Mutate, hty, hfr, her, h4, h5]
  · rw [h5ft, appendAll_nilIdent, appendAll_nilIdent]

/-! ## Quoting round-trip lemmas -/

theorem parseQuotedAux_quoteChars (cs : List Char) :
    parseQuotedAux (quoteChars cs ++ ['"']) = some cs := by
  induction cs with
  | nil =>
    show parseQuotedAux ['"'] = some []
    simp [parseQuotedAux]
  | cons c cs ih =>
    show parseQuotedAux
        ((if c = '"' then ['\\', '"'] else if c = '\\' then ['\\', '\\'] else [c])
          ++ quoteChars cs ++ ['"']) = some (c :: cs)
    by_cases h1 : c = '"'
    · subst h1
      rw [if_pos rfl]
      show parseQuotedAux ('\\' :: '"' :: (quoteChars cs ++ ['"'])) = _
      simp [parseQuotedAux, ih]
    · by_cases h2 : c = '\\'
      · subst h2
        rw [if_neg h1, if_pos rfl]
        show parseQuotedAux ('\\' :: '\\' :: (quoteChars cs ++ ['"'])) = _
        simp [parseQuotedAux, ih]
      · rw [if_neg h1, if_neg h2]
        show parseQuotedAux (c :: (quoteChars cs ++ ['"'])) = _
        unfold parseQuotedAux
        rw [if_neg h2, if_neg h1, ih]
        rfl

theorem parseGoString_goQuote (s : String) : parseGoString (goQuote s) = some s := by
  have h : parseGoString (goQuote s)
      = (parseQuotedAux (quoteChars s.data ++ ['"'])).map String.mk := rfl
  rw [h, parseQuotedAux_quoteChars]
  rfl

theorem any_false_countMatches (fn : String) (es : List Fragment)
    (h : es.any (fragMatches · fn) = false) : countMatches fn es = 0 := by
  induction es with
  | nil => rfl
  | cons f fs ih =>
    simp only [List.any_cons, Bool.or_eq_false_iff] at h
    unfold countMatches
    rw [List.filter_cons, h.1]
    rw [if_neg (by simp)]
    exact ih h.2

/-! ## Claims -/

/-- C2: `Mutate(ctx, mutators...)` applies the mutators strictly in list
order, stops at the first mutator whose `Mutate` returns an error and
returns that error, and returns nil if and only if every mutator
succeeded; mutators after the first failing one are never executed (the
result is the same whatever follows the failing mutator, so their side
effects are absent). -/
theorem mutate_pipeline_first_error :
    (∀ (ctx : Context) (ms : List Mutator),
        (Mutate ctx ms).2 = none ↔ allOk ctx ms = true)
    ∧ (∀ (ctx : Context) (pre : List Mutator) (m : Mutator) (rest : List Mutator)
        (c1 c2 : Context) (e : String),
        Mutate ctx pre = (c1, none) → m c1 = (c2, some e) →
        Mutate ctx (pre ++ m :: rest) = (c2, some e)) := by
  constructor
  · intro ctx ms
    induction ms generalizing ctx with
    | nil => simp [Mutate, allOk]
    | cons m ms ih =>
      rcases hm : m ctx with ⟨c, oe⟩
      cases oe with
      | none =>
        show (Mutate ctx (m :: ms)).2 = none ↔ allOk ctx (m :: ms) = true
        unfold Mutate allOk
        rw [hm]
        exact ih c
      | some e =>
        show (Mutate ctx (m :: ms)).2 = none ↔ allOk ctx (m :: ms) = true
        unfold Mutate allOk
        rw [hm]
        simp
  · intro ctx pre m rest c1 c2 e h1 h2
    induction pre generalizing ctx with
    | nil =>
      unfold Mutate at h1
      injection h1 with ha hb
      subst ha
      show Mutate ctx (m :: rest) = (c2, some e)
      unfold Mutate
      rw [h2]
    | cons m0 pre ih =>
      rcases hm0 : m0 ctx with ⟨c0, oe0⟩
      unfold Mutate at h1
      rw [hm0] at h1
      cases oe0 with
      | some e0 => simp at h1
      | none =>
        show Mutate ctx ((m0 :: pre) ++ m :: rest) = (c2, some e)
        rw [List.cons_append]
        unfold Mutate
        rw [hm0]
        exact ih c0 h1

theorem mutate_pipeline_first_error_witness :
    Mutate exCtx [mId, mBoom, mMark] = (exCtx, some "boom")
    ∧ ((Mutate exCtx [mId, mBoom, mMark]).2 = none
        ↔ allOk exCtx [mId, mBoom, mMark] = true) :=
  ⟨mutate_pipeline_first_error.2 exCtx [mId] mBoom [mMark] exCtx exCtx "boom" rfl rfl,
   mutate_pipeline_first_error.1 exCtx [mId, mBoom, mMark]⟩

/-- C3: a descriptor with two or more of the non-representable modifiers
(annotations, default, validators) present fails with one combined error:
every individual `UnsupportedFeature` message joined with "; " in the
fixed order Annotations, Default, Validators (the modifiers live in a
record, so the order they were set is not observable), and translation
does not stop at the first unsupported modifier found. -/
theorem combined_unsupported_errors (d : FieldDescriptor) (ctor : String)
    (hk : constructorOf d.kind = some ctor) :
    (d.annots = true → d.hasDefault = true → 0 < d.validators →
      Field d = .error ("schemast: unsupported feature Descriptor.Annotations; schemast: unsupported feature Descriptor.Default; schemast: unsupported feature Descriptor.Validators"))
    ∧ (d.annots = true → d.hasDefault = true → d.validators = 0 →
      Field d = .error ("schemast: unsupported feature Descriptor.Annotations; schemast: unsupported feature Descriptor.Default"))
    ∧ (d.annots = true → d.hasDefault = false → 0 < d.validators →
      Field d = .error ("schemast: unsupported feature Descriptor.Annotations; schemast: unsupported feature Descriptor.Validators"))
    ∧ (d.annots = false → d.hasDefault = true → 0 < d.validators →
      Field d = .error ("schemast: unsupported feature Descriptor.Default; schemast: unsupported feature Descriptor.Validators")) := by
  refine ⟨fun ha hd hv => ?_, fun ha hd hv => ?_, fun ha hd hv => ?_, fun ha hd hv => ?_⟩
  all_goals
    unfold Field unsupportedMsgs
    rw [hk]
    simp [ha, hd, hv]
    rfl

theorem combined_unsupported_errors_witness :
    Field { kind := .string, name := "x", annots := true, validators := 1 }
      = .error "schemast: unsupported feature Descriptor.Annotations; schemast: unsupported feature Descriptor.Validators" :=
  (combined_unsupported_errors
    { kind := .string, name := "x", annots := true, validators := 1 }
    "String" rfl).2.2.1 rfl rfl (by decide)

/-- C4: a descriptor whose kind has no entry in the closed
kind-to-constructor lookup table fails with an `UnsupportedType` error
whose message names that kind, and no fragment is returned as valid
output. -/
theorem unsupported_kind_rejected (d : FieldDescriptor)
    (h : constructorOf d.kind = none) :
    Field d = .error ("schemast: unsupported type " ++ d.kind.kindName)
    ∧ ∀ f, Field d ≠ .ok f := by
  have h1 : Field d = .error ("schemast: unsupported type " ++ d.kind.kindName) := by
    unfold Field
    rw [h]
  exact ⟨h1, fun f hf => by rw [h1] at hf; exact Except.noConfusion hf⟩

theorem unsupported_kind_rejected_witness :
    Field dJSON = .error "schemast: unsupported type TypeJSON"
    ∧ ∀ f, Field dJSON ≠ .ok f := by
  have h := unsupported_kind_rejected dJSON rfl
  exact ⟨by rw [h.1]; rfl, h.2⟩

/-- C5: a descriptor carrying a struct-tag modifier translates to a
fragment whose final chained call is `StructTag` with the tag as its
string argument; that call prints as `.StructTag(<quoted tag>)` where the
quoting escapes embedded quotes and backslashes, and parsing the quoted
literal back yields exactly the original tag string (the round trip is
the identity for every tag). -/
theorem structTag_roundtrip (d : FieldDescriptor) (t : String) (ctor : String)
    (hk : constructorOf d.kind = some ctor) (hm : unsupportedMsgs d = [])
    (ht : d.structTag = some t) :
    Field d = .ok ⟨ctor, d.name, fragCalls d⟩
    ∧ (fragCalls d).getLast? = some (.strArg "StructTag" t)
    ∧ (ChainedCall.strArg "StructTag" t).print = "." ++ "StructTag" ++ "(" ++ goQuote t ++ ")"
    ∧ parseGoString (goQuote t) = some t := by
  refine ⟨?_, ?_, rfl, parseGoString_goQuote t⟩
  · unfold Field
    rw [hk, hm]
  · simp only [fragCalls, ht]
    rw [List.getLast?_concat]

theorem structTag_roundtrip_witness :
    Field dTag = .ok ⟨"String", "x", [.strArg "StructTag" "j:\"hi\""]⟩
    ∧ parseGoString (goQuote "j:\"hi\"") = some "j:\"hi\"" := by
  have h := structTag_roundtrip dTag "j:\"hi\"" "String" rfl rfl rfl
  refine ⟨?_, h.2.2.2⟩
  rw [h.1]
  rfl

/-- C1: invoking `UpsertSchema.Mutate` twice on a context with two field
lists leaves the type's Fields return expression holding exactly the
translated fragments of the second list, in the second list's order, with
no element of the first list remaining: each `Mutate` resets both the
Fields and Edges return expressions to the `nil` identifier before
replaying `AppendField` over `Fields` in list order and then `AppendEdge`
over `Edges` in list order. -/
theorem upsert_twice_second_list_wins
    (ctx : Context) (u1 u2 : UpsertSchema) (t : TypeEntry) (rf re : RetExpr)
    (fs1 gs1 fs2 gs2 : List Fragment)
    (hn : u1.Name = u2.Name)
    (hft : ctx.findType u2.Name = some t)
    (hf : t.fieldsM = .wellFormed rf) (he : t.edgesM = .wellFormed re)
    (h1f : translateAll u1.Fields = .ok fs1) (h1e : translateEdges u1.Edges = .ok gs1)
    (h2f : translateAll u2.Fields = .ok fs2) (h2e : translateEdges u2.Edges = .ok gs2) :
    (u1.Mutate ctx).2 = none
    ∧ (u2.Mutate (u1.Mutate ctx).1).2 = none
    ∧ (u2.Mutate (u1.Mutate ctx).1).1.fieldsReturnStmt u2.Name = .ok (retOfFrags fs2)
    ∧ (retOfFrags fs2).elems = fs2 := by
  obtain ⟨c1, h1, h1ft⟩ :=
    upsert_ok u1 ctx t rf re fs1 gs1 (by rw [hn]; exact hft) hf he h1f h1e
  rw [hn] at h1ft
  obtain ⟨c2, h2, h2ft⟩ :=
    upsert_ok u2 c1 ⟨.wellFormed (retOfFrags fs1), .wellFormed (retOfFrags gs1)⟩
      (retOfFrags fs1) (retOfFrags gs1) fs2 gs2 h1ft rfl rfl h2f h2e
  have key : c2.fieldsReturnStmt u2.Name = .ok (retOfFrags fs2) :=
    fieldsReturnStmt_of_findType c2 u2.Name _ _ h2ft rfl
  refine ⟨by rw [h1], ?_, ?_, elems_retOfFrags fs2⟩
  · rw [h1]
    show (u2.Mutate c1).2 = none
    rw [h2]
  · rw [h1]
    show (u2.Mutate c1).1.fieldsReturnStmt u2.Name = .ok (retOfFrags fs2)
    rw [h2]
    exact key

theorem upsert_twice_second_list_wins_witness :
    ((UpsertSchema.mk "T" [dInt64C] []).Mutate
        ((UpsertSchema.mk "T" [dStrA, dStrB] []).Mutate exCtx).1).1.fieldsReturnStmt "T"
      = .ok (.sliceLit [⟨"Int64", "c", []⟩]) :=
  (upsert_twice_second_list_wins exCtx
    (UpsertSchema.mk "T" [dStrA, dStrB] []) (UpsertSchema.mk "T" [dInt64C] [])
    freshEntry .nilIdent .nilIdent
    [⟨"String", "a", []⟩, ⟨"String", "b", []⟩] [] [⟨"Int64", "c", []⟩] []
    rfl rfl rfl rfl rfl rfl rfl rfl).2.2.1

/-- C6: `RemoveField(typeName, fieldName)` fails with a `FieldNotFound`
error naming both the field name and the type name whenever the type's
Fields return expression is the `nil` identifier or a slice literal with
no element whose base-call first argument is the string literal
`fieldName`; in particular, after a successful removal of the only
matching element, repeating `RemoveField` fails rather than silently
succeeding. -/
theorem removeField_not_found_strict (ctx : Context) (tn fn : String) :
    (ctx.fieldsReturnStmt tn = .ok .nilIdent →
      ctx.RemoveField tn fn = .error (fieldNotFoundMsg fn tn))
    ∧ (∀ es, ctx.fieldsReturnStmt tn = .ok (.sliceLit es) →
        es.any (fragMatches · fn) = false →
        ctx.RemoveField tn fn = .error (fieldNotFoundMsg fn tn))
    ∧ (∀ es ctx2, ctx.fieldsReturnStmt tn = .ok (.sliceLit es) →
        countMatches fn es = 1 →
        ctx.RemoveField tn fn = .ok ctx2 →
        ctx2.RemoveField tn fn = .error (fieldNotFoundMsg fn tn)) := by
  refine ⟨fun hret => ?_, fun es hret hany => ?_, fun es ctx2 hret hcount hrem => ?_⟩
  · unfold Context.RemoveField
    simp only [hret]
  · unfold Context.RemoveField
    simp only [hret]
    rw [if_neg (by simp [hany])]
  · have hany : es.any (fragMatches · fn) = true := by
      cases hany2 : es.any (fragMatches · fn) with
      | true => rfl
      | false =>
        have h0 := any_false_countMatches fn es hany2
        omega
    have hform : ctx.RemoveField tn fn
        = .ok (ctx.setFieldsRet tn (.sliceLit (removeFirst fn es))) := by
      unfold Context.RemoveField
      simp only [hret]
      rw [if_pos hany]
    rw [hform] at hrem
    injection hrem with hc
    subst hc
    obtain ⟨t, hft, hfm⟩ := fieldsReturnStmt_ok_inv ctx tn _ hret
    have hret2 : (ctx.setFieldsRet tn (.sliceLit (removeFirst fn es))).fieldsReturnStmt tn
        = .ok (.sliceLit (removeFirst fn es)) := by
      apply fieldsReturnStmt_of_findType _ _ ⟨.wellFormed (.sliceLit (removeFirst fn es)), t.edgesM⟩
      · rw [findType_setFieldsRet, hft]
        rfl
      · rfl
    have hfalse := removeFirst_count fn es hcount
    unfold Context.RemoveField
    simp only [hret2]
    rw [if_neg (by simp [hfalse])]

theorem removeField_not_found_strict_witness :
    exCtxName.RemoveField "T" "non_existent"
      = .error "schemast: could not find field \"non_existent\" in type \"T\""
    ∧ (∀ ctx2, exCtxName.RemoveField "T" "name" = .ok ctx2 →
        ctx2.RemoveField "T" "name"
          = .error (fieldNotFoundMsg "name" "T")) := by
  constructor
  · have h := (removeField_not_found_strict exCtxName "T" "non_existent").2.1
      [⟨"String", "name", []⟩] rfl rfl
    rw [h]
    rfl
  · intro ctx2 hrem
    exact (removeField_not_found_strict exCtxName "T" "name").2.2
      [⟨"String", "name", []⟩] ctx2 rfl rfl hrem

/-- C7: when the Fields return expression is a slice literal containing an
element matching the field name (after a possibly empty prefix of
non-matching elements), `RemoveField` removes exactly that one matching
element, preserving the order of the remaining elements; the result is
always a slice literal — in particular removing the last element leaves
an empty slice literal, never the `nil` identifier. -/
theorem removeField_removes_exactly_one (ctx : Context) (tn fn : String)
    (pre rest : List Fragment) (mat : Fragment)
    (hret : ctx.fieldsReturnStmt tn = .ok (.sliceLit (pre ++ mat :: rest)))
    (hpre : ∀ f ∈ pre, fragMatches f fn = false)
    (hmat : fragMatches mat fn = true) :
    ctx.RemoveField tn fn = .ok (ctx.setFieldsRet tn (.sliceLit (pre ++ rest)))
    ∧ (ctx.setFieldsRet tn (.sliceLit (pre ++ rest))).fieldsReturnStmt tn
        = .ok (.sliceLit (pre ++ rest))
    ∧ RetExpr.sliceLit (pre ++ rest) ≠ RetExpr.nilIdent := by
  have hany : (pre ++ mat :: rest).any (fragMatches · fn) = true := by
    rw [List.any_eq_true]
    exact ⟨mat, by simp, hmat⟩
  refine ⟨?_, ?_, by simp⟩
  · unfold Context.RemoveField
    simp only [hret]
    rw [if_pos hany, removeFirst_split fn pre rest mat hpre hmat]
  · obtain ⟨t, hft, hfm⟩ := fieldsReturnStmt_ok_inv ctx tn _ hret
    apply fieldsReturnStmt_of_findType _ _ ⟨.wellFormed (.sliceLit (pre ++ rest)), t.edgesM⟩
    · rw [findType_setFieldsRet, hft]
      rfl
    · rfl

theorem removeField_removes_exactly_one_witness :
    exCtxName.RemoveField "T" "name"
      = .ok (exCtxName.setFieldsRet "T" (.sliceLit []))
    ∧ (exCtxName.setFieldsRet "T" (.sliceLit [])).fieldsReturnStmt "T"
        = .ok (.sliceLit [])
    ∧ RetExpr.sliceLit [] ≠ RetExpr.nilIdent :=
  removeField_removes_exactly_one exCtxName "T" "name" [] [] ⟨"String", "name", []⟩
    rfl (by simp) rfl

/-- C8: `AppendField` on a type whose Fields return expression is the
`nil` identifier replaces it with a one-element slice literal holding the
translated fragment; on a type whose Fields return expression is a slice
literal it appends the fragment as a new trailing element, keeping every
existing element unchanged in place, so a second `AppendField` yields a
two-element slice literal preserving the first element. -/
theorem appendField_nil_and_append (ctx : Context) (tn : String)
    (d : FieldDescriptor) (f : Fragment) (hd : Field d = .ok f) :
    (ctx.fieldsReturnStmt tn = .ok .nilIdent →
      ctx.AppendField tn d = .ok (ctx.setFieldsRet tn (.sliceLit [f]))
      ∧ (ctx.setFieldsRet tn (.sliceLit [f])).fieldsReturnStmt tn = .ok (.sliceLit [f]))
    ∧ (∀ es, ctx.fieldsReturnStmt tn = .ok (.sliceLit es) →
      ctx.AppendField tn d = .ok (ctx.setFieldsRet tn (.sliceLit (es ++ [f])))
      ∧ (ctx.setFieldsRet tn (.sliceLit (es ++ [f]))).fieldsReturnStmt tn
          = .ok (.sliceLit (es ++ [f]))) := by
  constructor
  · intro hret
    obtain ⟨t, hft, hfm⟩ := fieldsReturnStmt_ok_inv ctx tn _ hret
    refine ⟨appendField_ok ctx tn d f .nilIdent hd hret, ?_⟩
    apply fieldsReturnStmt_of_findType _ _ ⟨.wellFormed (.sliceLit [f]), t.edgesM⟩
    · rw [findType_setFieldsRet, hft]
      rfl
    · rfl
  · intro es hret
    obtain ⟨t, hft, hfm⟩ := fieldsReturnStmt_ok_inv ctx tn _ hret
    refine ⟨appendField_ok ctx tn d f (.sliceLit es) hd hret, ?_⟩
    apply fieldsReturnStmt_of_findType _ _ ⟨.wellFormed (.sliceLit (es ++ [f])), t.edgesM⟩
    · rw [findType_setFieldsRet, hft]
      rfl
    · rfl

theorem appendField_nil_and_append_witness :
    exCtx.AppendField "T" dStrA
      = .ok (exCtx.setFieldsRet "T" (.sliceLit [⟨"String", "a", []⟩]))
    ∧ (exCtx.setFieldsRet "T" (.sliceLit [⟨"String", "a", []⟩])).AppendField "T" dStrB
      = .ok ((exCtx.setFieldsRet "T" (.sliceLit [⟨"String", "a", []⟩])).setFieldsRet "T"
          (.sliceLit [⟨"String", "a", []⟩, ⟨"String", "b", []⟩])) :=
  ⟨((appendField_nil_and_append exCtx "T" dStrA ⟨"String", "a", []⟩ rfl).1 rfl).1,
   ((appendField_nil_and_append (exCtx.setFieldsRet "T" (.sliceLit [⟨"String", "a", []⟩]))
      "T" dStrB ⟨"String", "b", []⟩ rfl).2 [⟨"String", "a", []⟩] rfl).1⟩

/-- C9: `UpsertSchema.Mutate` resets the Fields return expression to the
`nil` identifier before it resolves the Edges return statement, and
resets both return expressions before performing any append: if resolving
the Edges return statement fails, the previous fields are already
discarded; if an `AppendField` fails part-way through the field list,
both previous field and edge sets are already discarded and only the
appends completed before the failure are present; and if an `AppendEdge`
fails part-way through the edge list, both previous sets are discarded,
the fields are fully rebuilt from the new list, and only the edge appends
completed before the failure are present. -/
theorem upsert_partial_state_on_error :
    (∀ (u : UpsertSchema) (ctx : Context) (t : TypeEntry) (rf : RetExpr) (e : String),
      ctx.findType u.Name = some t → t.fieldsM = .wellFormed rf →
      ctx.edgesReturnStmt u.Name = .error e →
      u.Mutate ctx = (ctx.setFieldsRet u.Name .nilIdent, some e)
      ∧ (ctx.setFieldsRet u.Name .nilIdent).fieldsReturnStmt u.Name = .ok .nilIdent)
    ∧ (∀ (u : UpsertSchema) (ctx : Context) (t : TypeEntry) (rf re : RetExpr)
        (ds1 : List FieldDescriptor) (d : FieldDescriptor) (ds2 : List FieldDescriptor)
        (fs1 : List Fragment) (e : String),
      ctx.findType u.Name = some t → t.fieldsM = .wellFormed rf →
      t.edgesM = .wellFormed re →
      u.Fields = ds1 ++ d :: ds2 →
      translateAll ds1 = .ok fs1 → Field d = .error e →
      (u.Mutate ctx).2 = some e
      ∧ (u.Mutate ctx).1.fieldsReturnStmt u.Name = .ok (retOfFrags fs1)
      ∧ (u.Mutate ctx).1.edgesReturnStmt u.Name = .ok .nilIdent)
    ∧ (∀ (u : UpsertSchema) (ctx : Context) (t : TypeEntry) (rf re : RetExpr)
        (fs : List Fragment) (es1 : List EdgeDescriptor) (d : EdgeDescriptor)
        (es2 : List EdgeDescriptor) (gs1 : List Fragment) (e : String),
      ctx.findType u.Name = some t → t.fieldsM = .wellFormed rf →
      t.edgesM = .wellFormed re →
      translateAll u.Fields = .ok fs →
      u.Edges = es1 ++ d :: es2 →
      translateEdges es1 = .ok gs1 → Edge d = .error e →
      (u.Mutate ctx).2 = some e
      ∧ (u.Mutate ctx).1.fieldsReturnStmt u.Name = .ok (retOfFrags fs)
      ∧ (u.Mutate ctx).1.edgesReturnStmt u.Name = .ok (retOfFrags gs1)) := by
  refine ⟨?_, ?_, ?_⟩
  · intro u ctx t rf e hft hf herr
    have hty : ctx.HasType u.Name = true := hasType_of_findType ctx u.Name t hft
    have hfr : ctx.fieldsReturnStmt u.Name = .ok rf :=
      fieldsReturnStmt_of_findType ctx u.Name t rf hft hf
    have herr2 : (ctx.setFieldsRet u.Name .nilIdent).edgesReturnStmt u.Name = .error e := by
      rw [edgesReturnStmt_setFieldsRet]
      exact herr
    constructor
    · simp [UpsertSchema.Mutate, hty, hfr, herr2]
    · apply fieldsReturnStmt_of_findType _ _ ⟨.wellFormed .nilIdent, t.edgesM⟩
      · rw [findType_setFieldsRet, hft]
        rfl
      · rfl
  · intro u ctx t rf re ds1 d ds2 fs1 e hft hf he hfields htr hd
    have hty : ctx.HasType u.Name = true := hasType_of_findType ctx u.Name t hft
    have hfr : ctx.fieldsReturnStmt u.Name = .ok rf :=
      fieldsReturnStmt_of_findType ctx u.Name t rf hft hf
    have her : (ctx.setFieldsRet u.Name .nilIdent).edgesReturnStmt u.Name = .ok re := by
      rw [edgesReturnStmt_setFieldsRet]
      exact edgesReturnStmt_of_findType ctx u.Name t re hft he
    have hc3ft : ((ctx.setFieldsRet u.Name .nilIdent).setEdgesRet u.Name .nilIdent).findType u.Name
        = some ⟨.wellFormed .nilIdent, .wellFormed .nilIdent⟩ := by
      rw [findType_setEdgesRet, findType_setFieldsRet, hft]
      rfl
    obtain ⟨c4, h4, h4ft⟩ :=
      appendFields_fail u.Name ds1 fs1 d ds2 e
        ((ctx.setFieldsRet u.Name .nilIdent).setEdgesRet u.Name .nilIdent)
        ⟨.wellFormed .nilIdent, .wellFormed .nilIdent⟩ .nilIdent htr hd hc3ft rfl
    rw [← hfields] at h4
    have hmut : u.Mutate ctx = (c4, some e) := by
      simp [UpsertSchema.Mutate, hty, hfr, her, h4]
    refine ⟨by rw [hmut], ?_, ?_⟩
    · rw [hmut]
      show c4.fieldsReturnStmt u.Name = .ok (retOfFrags fs1)
      have := fieldsReturnStmt_of_findType c4 u.Name _ _ h4ft rfl
      rw [appendAll_nilIdent] at this
      exact this
    · rw [hmut]
      show c4.edgesReturnStmt u.Name = .ok .nilIdent
      exact edgesReturnStmt_of_findType c4 u.Name _ _ h4ft rfl
  · intro u ctx t rf re fs es1 d es2 gs1 e hft hf he htf hedges hte hd
    have hty : ctx.HasType u.Name = true := hasType_of_findType ctx u.Name t hft
    have hfr : ctx.fieldsReturnStmt u.Name = .ok rf :=
      fieldsReturnStmt_of_findType ctx u.Name t rf hft hf
    have her : (ctx.setFieldsRet u.Name .nilIdent).edgesReturnStmt u.Name = .ok re := by
      rw [edgesReturnStmt_setFieldsRet]
      exact edgesReturnStmt_of_findType ctx u.Name t re hft he
    have hc3ft : ((ctx.setFieldsRet u.Name .nilIdent).setEdgesRet u.Name .nilIdent).findType u.Name
        = some ⟨.wellFormed .nilIdent, .wellFormed .nilIdent⟩ := by
      rw [findType_setEdgesRet, findType_setFieldsRet, hft]
      rfl
    obtain ⟨c4, h4, h4ft⟩ :=
      appendFields_ok u.Name u.Fields fs
        ((ctx.setFieldsRet u.Name .nilIdent).setEdgesRet u.Name .nilIdent)
        ⟨.wellFormed .nilIdent, .wellFormed .nilIdent⟩ .nilIdent htf hc3ft rfl
    obtain ⟨c5, h5, h5ft⟩ :=
      appendEdges_fail u.Name es1 gs1 d es2 e c4
        ⟨.wellFormed (RetExpr.appendAll .nilIdent fs), .wellFormed .nilIdent⟩ .nilIdent
        hte hd h4ft rfl
    rw [← hedges] at h5
    have hmut : u.Mutate ctx = (c5, some e) := by
      simp [UpsertSchema.Mutate, hty, hfr, her, h4, h5]
    refine ⟨by rw [hmut], ?_, ?_⟩
    · rw [hmut]
      show c5.fieldsReturnStmt u.Name = .ok (retOfFrags fs)
      have hfld := fieldsReturnStmt_of_findType c5 u.Name _ _ h5ft rfl
      rw [appendAll_nilIdent] at hfld
      exact hfld
    · rw [hmut]
      show c5.edgesReturnStmt u.Name = .ok (retOfFrags gs1)
      have hedg := edgesReturnStmt_of_findType c5 u.Name _ _ h5ft rfl
      rw [appendAll_nilIdent] at hedg
      exact hedg

theorem upsert_partial_state_on_error_witness :
    (UpsertSchema.mk "T" [] []).Mutate exCtxNoEdges
      = (exCtxNoEdges.setFieldsRet "T" .nilIdent,
         some (methodNotFoundMsg "Edges" "T"))
    ∧ ((UpsertSchema.mk "T" [dBad] []).Mutate exCtxName).1.fieldsReturnStmt "T"
        = .ok .nilIdent
    ∧ (((UpsertSchema.mk "T" [dStrA] [eBad]).Mutate exCtxName).1.fieldsReturnStmt "T"
        = .ok (.sliceLit [⟨"String", "a", []⟩])
      ∧ ((UpsertSchema.mk "T" [dStrA] [eBad]).Mutate exCtxName).1.edgesReturnStmt "T"
        = .ok .nilIdent) := by
  refine ⟨?_, ?_, ?_⟩
  · exact (upsert_partial_state_on_error.1 (UpsertSchema.mk "T" [] []) exCtxNoEdges
      ⟨.wellFormed .nilIdent, .absent⟩ .nilIdent (methodNotFoundMsg "Edges" "T")
      rfl rfl rfl).1
  · exact (upsert_partial_state_on_error.2.1 (UpsertSchema.mk "T" [dBad] []) exCtxName
      ⟨.wellFormed (.sliceLit [⟨"String", "name", []⟩]), .wellFormed .nilIdent⟩
      (.sliceLit [⟨"String", "name", []⟩]) .nilIdent
      [] dBad [] [] "schemast: unsupported feature Descriptor.Annotations"
      rfl rfl rfl rfl rfl rfl).2.1
  · have h := upsert_partial_state_on_error.2.2 (UpsertSchema.mk "T" [dStrA] [eBad]) exCtxName
      ⟨.wellFormed (.sliceLit [⟨"String", "name", []⟩]), .wellFormed .nilIdent⟩
      (.sliceLit [⟨"String", "name", []⟩]) .nilIdent
      [⟨"String", "a", []⟩] [] eBad [] []
      "schemast: unsupported feature Descriptor.Annotations"
      rfl rfl rfl rfl rfl rfl rfl
    exact ⟨h.2.1, h.2.2⟩

/-- C10: `UpsertSchema.Mutate` with empty field and edge lists on a
context containing a well-formed type of that name succeeds and leaves
both the Fields and Edges return expressions as the `nil` identifier (the
"never touched" shape), not as empty slice literals. -/
theorem upsert_empty_lists_leave_nil (u : UpsertSchema) (ctx : Context)
    (t : TypeEntry) (rf re : RetExpr)
    (hft : ctx.findType u.Name = some t)
    (hf : t.fieldsM = .wellFormed rf) (he : t.edgesM = .wellFormed re)
    (hfs : u.Fields = []) (hes : u.Edges = []) :
    (u.Mutate ctx).2 = none
    ∧ (u.Mutate ctx).1.fieldsReturnStmt u.Name = .ok .nilIdent
    ∧ (u.Mutate ctx).1.edgesReturnStmt u.Name = .ok .nilIdent := by
  obtain ⟨c2, h2, hft2⟩ :=
    upsert_ok u ctx t rf re [] [] hft hf he (by rw [hfs]; rfl) (by rw [hes]; rfl)
  refine ⟨by rw [h2], ?_, ?_⟩
  · rw [h2]
    exact fieldsReturnStmt_of_findType c2 u.Name _ _ hft2 rfl
  · rw [h2]
    exact edgesReturnStmt_of_findType c2 u.Name _ _ hft2 rfl

theorem upsert_empty_lists_leave_nil_witness :
    ((UpsertSchema.mk "T" [] []).Mutate exCtxName).2 = none
    ∧ ((UpsertSchema.mk "T" [] []).Mutate exCtxName).1.fieldsReturnStmt "T" = .ok .nilIdent
    ∧ ((UpsertSchema.mk "T" [] []).Mutate exCtxName).1.edgesReturnStmt "T" = .ok .nilIdent :=
  upsert_empty_lists_leave_nil (UpsertSchema.mk "T" [] []) exCtxName
    ⟨.wellFormed (.sliceLit [⟨"String", "name", []⟩]), .wellFormed .nilIdent⟩
    (.sliceLit [⟨"String", "name", []⟩]) .nilIdent rfl rfl rfl rfl rfl

end Schemast

